import Mathlib

/-!
Verification of the Kalshi NYC temperature-ladder snapshot worker
(`src/main.py`) against its natural-language specification.

The Python source is shallowly embedded: Python `str` values are Lean
`String`s (operated on through their `List Char` data where convenient),
Python ints are `Int`/`Nat`, Python lists are Lean lists, `dict.get`
of a possibly-absent field is `Option`, and raised exceptions are the
`Except String` error monad.  Python's stable `sorted` is the stable
insertion sort `pySorted` with a `≤` comparison on the key (the output of
a stable sort is uniquely determined by the comparison).  The RSA-PSS
signing primitive and PEM parsing are outside the model: the signer is an
abstract `String → String` function and PEM validity an abstract predicate
supplied by the environment; the claims under verification concern which
message is signed, not the cryptography itself.  Numeric suffix parsing
`int(float(s))` is modelled as exact decimal parsing with truncation
toward zero (IEEE rounding above 2^53, underscores, exponents and
infinities are not modelled).
-/

/-! ## Python string splitting

`s.split(sep)` for a one-character separator, modelled on `List Char`.
Python's `split` always returns at least one (possibly empty) segment.
-/

/-- Python `s.split(sep)` on character lists: all segments, in order. -/
def pySplit (sep : Char) : List Char → List (List Char)
  | [] => [[]]
  | c :: rest =>
    if c = sep then [] :: pySplit sep rest
    else
      match pySplit sep rest with
      | s :: ss => (c :: s) :: ss
      | [] => [[c]]

/-- Python `s.split(sep)[0]`: the first segment. -/
def pyFirstSeg (sep : Char) (s : String) : String :=
  String.mk ((pySplit sep s.data).headD [])

/-- Python `s.split(sep)[-1]`: the last segment. -/
def pyLastSeg (sep : Char) (s : String) : String :=
  String.mk ((pySplit sep s.data).getLastD [])

/-! ## Python `sorted`

Python's `sorted` (Timsort) is a stable sort.  The output of a stable
sort by a total, transitive boolean comparison is uniquely determined by
the input order and the comparison, so stable insertion sort below is an
exact model of `sorted` with a `key=` function (comparison
`key a ≤ key b`): an element is inserted before exactly the later-coming
elements whose key is not smaller.
-/

/-- Insert `a` before the first element `b` with `le a b`; for elements
of equal key this keeps `a` (the earlier element) first — stability. -/
def ordInsert (le : α → α → Bool) (a : α) : List α → List α
  | [] => [a]
  | b :: l => if le a b then a :: b :: l else b :: ordInsert le a l

/-- Stable sort by the boolean comparison `le`. -/
def pySorted (le : α → α → Bool) : List α → List α
  | [] => []
  | a :: l => ordInsert le a (pySorted le l)

/-- Python truthiness of an optional string: `None` and `""` are falsy. -/
def pyTruthy (s : Option String) : Bool :=
  match s with
  | none => false
  | some t => !(t = "")

/-- Python `a or b` on two optional strings (used for
`event.get("event_ticker") or event.get("ticker")`). -/
def pyOrStr (a b : Option String) : Option String :=
  if pyTruthy a then a else b

/-- Python `s.startswith(c)` for a one-character prefix. -/
def pyStartsWith (c : Char) (s : String) : Bool :=
  s.data.head? = some c

/-! ## Numeric suffix parsing (`int(float(suffix[1:]))`) -/

/-- The numeric value of a digit string (most significant first). -/
def digitsToNat (ds : List Char) : Nat :=
  ds.foldl (fun a c => a * 10 + (c.toNat - 48)) 0

/-- `int(float(s))` for an unsigned decimal literal: digits with an
optional fractional part (at least one digit overall).  Truncation toward
zero of a nonnegative decimal keeps exactly the integer part.  Any other
shape makes Python's `float` raise, modelled as `none`. -/
def parseUnsignedTrunc (s : List Char) : Option Nat :=
  let ip := s.takeWhile Char.isDigit
  match s.drop ip.length with
  | [] => if ip.isEmpty then none else some (digitsToNat ip)
  | c :: fp =>
    if c = '.' && fp.all Char.isDigit && !(ip.isEmpty && fp.isEmpty) then
      some (digitsToNat ip)
    else none

/-- `int(float(s))` for a signed decimal literal, truncating toward
zero. -/
def parsePyNumTrunc : List Char → Option Int
  | '-' :: rest => (parseUnsignedTrunc rest).map (fun n => -(n : Int))
  | '+' :: rest => (parseUnsignedTrunc rest).map (fun n => (n : Int))
  | s => (parseUnsignedTrunc s).map (fun n => (n : Int))

/-- `int(float(suffix[1:]))`, `none` when Python would raise. -/
def suffixValue? (s : String) : Option Int :=
  parsePyNumTrunc (s.data.drop 1)

/-- Total version of `suffixValue?`; the pipeline only evaluates it under
an `allParse` guard, so the default is never observed. -/
def suffixValue (s : String) : Int :=
  (suffixValue? s).getD 0

/-! ## Signer (`get_headers`, lines 61-71) -/

structure Headers where
  accessKey : Option String
  signature : String
  timestamp : String
deriving Repr, DecidableEq

/-- Embedding of `get_headers(method, path, private_key)`.  `sign` stands
for `lambda m: sign_message(private_key, m)` and `nowMs` for
`int(datetime.datetime.now(datetime.UTC).timestamp() * 1000)` evaluated at
the moment of the call. -/
def get_headers (sign : String → String) (apiKeyId : Option String)
    (nowMs : Nat) (method path : String) : Headers :=
  let timestamp := toString nowMs
  let path_without_query := pyFirstSeg '?' path
  let message := timestamp ++ method ++ path_without_query
  { accessKey := apiKeyId
    signature := sign message
    timestamp := timestamp }

/-! ## Depth extraction (`extract_depth`, lines 101-111)

An order book is a JSON object whose `yes` and `no` fields each hold a
list of `[price, quantity]` levels or may be absent/null (`Option`).
`orderbook.get("yes") or []` maps an absent or null field to `[]`.
-/

structure Orderbook where
  yes : Option (List (Int × Int))
  no : Option (List (Int × Int))
deriving Repr, DecidableEq

/-- Embedding of `extract_depth(orderbook)`: returns
`(yes_bids, yes_asks)`. -/
def extract_depth (ob : Orderbook) : List (Int × Int) × List (Int × Int) :=
  let yes_raw := ob.yes.getD []
  let no_raw := ob.no.getD []
  let yes_bids := yes_raw.reverse.take 5
  let no_bids := no_raw.reverse.take 5
  let yes_asks :=
    (pySorted (fun a b => decide (a.1 ≤ b.1))
      (no_bids.map (fun pq => (100 - pq.1, pq.2)))).take 5
  (yes_bids, yes_asks)

/-- Embedding of `r.json().get("orderbook", {}) or {}` in `get_orderbook`
(lines 90-94): an absent or null `orderbook` field becomes the empty
order book, whose sides are both absent. -/
def orderbook_of_response (resp : Option Orderbook) : Orderbook :=
  resp.getD { yes := none, no := none }

/-! ## Markets and ladder classification (`run_snapshot`, lines 138-197) -/

/-- One market entry of the venue's `markets` JSON array; the program
only reads its possibly-absent `ticker` field. -/
structure MarketJson where
  ticker : Option String
deriving Repr, DecidableEq

/-- One market entry of the venue's `events` JSON array; the program
reads the possibly-absent `event_ticker` and `ticker` fields. -/
structure EventJson where
  event_ticker : Option String
  ticker : Option String
deriving Repr, DecidableEq

/-- The dict `{"ticker": ..., "suffix": ...}` appended to
`event_markets`; Python `==` on such dicts is field-wise equality. -/
structure Market where
  ticker : String
  suffix : String
deriving Repr, DecidableEq

/-- The filtering loop of lines 138-152: skip entries whose `ticker` is
absent or falsy, take the last `-`-separated segment as the suffix, and
keep only suffixes starting with `B` or `T`. -/
def filterMarkets (markets : List MarketJson) : List Market :=
  markets.filterMap (fun m =>
    match m.ticker with
    | none => none
    | some t =>
      if t = "" then none
      else
        let suffix := pyLastSeg '-' t
        if pyStartsWith 'B' suffix || pyStartsWith 'T' suffix then
          some { ticker := t, suffix := suffix }
        else none)

def isT (m : Market) : Bool := pyStartsWith 'T' m.suffix

def isB (m : Market) : Bool := pyStartsWith 'B' m.suffix

/-- Python's stable `sorted(..., key=lambda x: int(float(x["suffix"][1:])))`. -/
def sortByValue (ms : List Market) : List Market :=
  pySorted (fun a b => decide (suffixValue a.suffix ≤ suffixValue b.suffix)) ms

/-- `t_markets` of lines 154-157. -/
def t_markets (em : List Market) : List Market :=
  sortByValue (em.filter isT)

/-- `b_markets` of lines 159-162. -/
def b_markets (em : List Market) : List Market :=
  sortByValue (em.filter isB)

/-- `sorted` computes the key of every element, so the sorts of lines
154-162 raise `ValueError` as soon as one suffix value fails to parse. -/
def allParse (em : List Market) : Bool :=
  em.all (fun m => (suffixValue? m.suffix).isSome)

/-- `ordered_markets` of lines 164-172: the head of `t_markets` when it
is nonempty, all `b_markets`, then the last of `t_markets` when it has
more than one element. -/
def ladderOf (em : List Market) : List Market :=
  let t := t_markets em
  t.head?.toList ++ b_markets em ++
    (if t.length > 1 then t.getLast?.toList else [])

inductive BucketType
  | below
  | range
  | above
deriving Repr, DecidableEq

/-- The bucket assignment of lines 180-197 for one `market_data`, given
the event's sorted `t_markets`: `(bucket_type, lower_bound,
upper_bound)`.  (`market_data == t_markets[0]` is only evaluated when the
suffix starts with `T`, in which case `t_markets` is nonempty, so
`t.head? = some m` is exactly that comparison.) -/
def assignBucket (t : List Market) (m : Market) :
    Option BucketType × Option Int × Option Int :=
  let value := suffixValue m.suffix
  if pyStartsWith 'B' m.suffix then (some .range, some value, some (value + 1))
  else if pyStartsWith 'T' m.suffix then
    if t.head? = some m then (some .below, none, some (value - 1))
    else (some .above, some (value + 1), none)
  else (none, none, none)

/-- One classified ladder position: the bucket fields of the row built in
lines 174-210 for the market at 0-based index `idx`, with
`order = idx + 1`. -/
structure LadderEntry where
  ticker : String
  suffix : String
  bucket_type : Option BucketType
  lower_bound : Option Int
  upper_bound : Option Int
  order : Nat
deriving Repr, DecidableEq

/-- The ladder entry built for the market at 0-based index `k` of the
ladder: bucket fields from `assignBucket`, `order = k + 1` (line 178). -/
def mkEntry (t : List Market) (k : Nat) (m : Market) : LadderEntry :=
  let b := assignBucket t m
  { ticker := m.ticker
    suffix := m.suffix
    bucket_type := b.1
    lower_bound := b.2.1
    upper_bound := b.2.2
    order := k + 1 }

/-- `for idx, market_data in enumerate(ordered_markets)` starting at
index `k`: one entry per remaining ladder position. -/
def classifyFrom (t : List Market) : Nat → List Market → List LadderEntry
  | _, [] => []
  | k, m :: rest => mkEntry t k m :: classifyFrom t (k + 1) rest

/-- The classification part of the per-market loop (lines 174-197),
applied to the whole ladder. -/
def classifyLadder (em : List Market) : List LadderEntry :=
  classifyFrom (t_markets em) 0 (ladderOf em)

/-- Classification of one event's filtered markets as executed inside
`run_snapshot`: computing the sort keys (lines 154-162) raises
`ValueError` when some suffix value does not parse; otherwise the ladder
entries are produced. -/
def classifyEvent (em : List Market) : Except String (List LadderEntry) :=
  if allParse em then .ok (classifyLadder em)
  else .error "ValueError: could not convert string to float"

/-! ## Snapshot rows and the environment -/

/-- One row of the `kalshi_high_snapshots` insert (lines 202-226).  The
`bids`/`asks` component holds the ten `bid{i}_price/qty` and
`ask{i}_price/qty` column pairs: always exactly five slots per side,
absent levels filled with `None`. -/
structure SnapshotRow where
  timestamp_utc : String
  event : Option String
  market : String
  bucket_type : Option BucketType
  lower_bound : Option Int
  upper_bound : Option Int
  order : Nat
  bids : List (Option (Int × Int))
  asks : List (Option (Int × Int))
deriving Repr, DecidableEq

/-- The padding loops of lines 212-226: five slots, `levels[i]` when it
exists and `None` otherwise. -/
def padTo5 (levels : List (Int × Int)) : List (Option (Int × Int)) :=
  (List.range 5).map (fun i => levels.get? i)

/-- The process environment: configuration variables, the abstract PEM
check, and the responses the outside world (venue API and Supabase sink)
would give.  Responses are `Except`-valued: an `error` is a raised
exception (network failure, malformed JSON, sink rejection). -/
structure Env where
  privateKeyEnv : Option String
  pemOk : String → Bool
  eventsResp : String → Except String (List EventJson)
  marketsResp : Option String → Except String (List MarketJson)
  orderbookResp : String → Except String (Option Orderbook)
  insertResp : List SnapshotRow → Except String Unit
  nowIso : String

/-- Embedding of `load_private_key_from_env` (lines 39-48): a missing or
falsy `KALSHI_PRIVATE_KEY` raises `ValueError`; PEM deserialization of
malformed key material raises as well. -/
def load_private_key_from_env (env : Env) : Except String Unit :=
  match env.privateKeyEnv with
  | none => .error "Missing KALSHI_PRIVATE_KEY environment variable"
  | some s =>
    if s = "" then .error "Missing KALSHI_PRIVATE_KEY environment variable"
    else if env.pemOk s then .ok ()
    else .error "Could not deserialize key data."

/-- Lines 199-228 for one ladder entry: fetch the order book, extract
depth, assemble the row.  A raised fetch error propagates. -/
def rowForEntry (env : Env) (timestamp : String) (event_ticker : Option String)
    (e : LadderEntry) : Except String SnapshotRow :=
  match env.orderbookResp e.ticker with
  | .error msg => .error msg
  | .ok resp =>
    let depth := extract_depth (orderbook_of_response resp)
    .ok { timestamp_utc := timestamp
          event := event_ticker
          market := e.suffix
          bucket_type := e.bucket_type
          lower_bound := e.lower_bound
          upper_bound := e.upper_bound
          order := e.order
          bids := padTo5 depth.1
          asks := padTo5 depth.2 }

/-- The per-market loop of lines 174-228: one row per ladder entry,
in ladder order; the first raised error aborts the whole walk. -/
def rowsForEntries (env : Env) (timestamp : String) (event_ticker : Option String) :
    List LadderEntry → Except String (List SnapshotRow)
  | [] => .ok []
  | e :: rest =>
    match rowForEntry env timestamp event_ticker e with
    | .error msg => .error msg
    | .ok r =>
      match rowsForEntries env timestamp event_ticker rest with
      | .error msg => .error msg
      | .ok rs => .ok (r :: rs)

/-- Classify one event's filtered markets, then build the row of every
ladder position in order (lines 154-228). -/
def classifyRows (env : Env) (timestamp : String) (event_ticker : Option String)
    (em : List Market) : Except String (List SnapshotRow) :=
  match classifyEvent em with
  | .error e => .error e
  | .ok entries => rowsForEntries env timestamp event_ticker entries

/-- The per-event body of `run_snapshot` (lines 131-228): resolve the
event ticker, fetch its open markets, filter, classify, build rows. -/
def rowsForEvent (env : Env) (timestamp : String) (event : EventJson) :
    Except String (List SnapshotRow) :=
  let event_ticker := pyOrStr event.event_ticker event.ticker
  match env.marketsResp event_ticker with
  | .error e => .error e
  | .ok markets => classifyRows env timestamp event_ticker (filterMarkets markets)

/-- The `SERIES_TICKERS` configuration list (lines 26-32). -/
def SERIES_TICKERS : List String :=
  ["KXHIGHNY", "KXHIGHMIA", "KXHIGHAUS", "KXHIGHCHI",
   "KXHIGHLAX", "KXHIGHTDC", "KXHIGHTDAL", "KXHIGHTATL",
   "KXHIGHPHIL", "KXHIGHDEN", "KXHIGHTSEA", "KXHIGHTSFO",
   "KXHIGHTLV", "KXHIGHTHOU", "KXHIGHTPHX", "KXHIGHTNOLA",
   "KXHIGHTBOS", "KXHIGHTMIN", "KXHIGHTOKC", "KXHIGHTSATX"]

/-- The inner event loop of lines 131-228: each open event's rows are
appended to the accumulator in order; the first raised error aborts. -/
def rowsForEvents (env : Env) (timestamp : String) :
    List EventJson → Except String (List SnapshotRow)
  | [] => .ok []
  | ev :: rest =>
    match rowsForEvent env timestamp ev with
    | .error e => .error e
    | .ok rows =>
      match rowsForEvents env timestamp rest with
      | .error e => .error e
      | .ok more => .ok (rows ++ more)

/-- The outer series loop of lines 127-228: fetch the open events of
each configured series and accumulate their rows. -/
def rowsForAllSeries (env : Env) : List String → Except String (List SnapshotRow)
  | [] => .ok []
  | s :: rest =>
    match env.eventsResp s with
    | .error e => .error e
    | .ok events =>
      match rowsForEvents env env.nowIso events with
      | .error e => .error e
      | .ok rows =>
        match rowsForAllSeries env rest with
        | .error e => .error e
        | .ok more => .ok (rows ++ more)

/-- The row-accumulation phase of `run_snapshot` (lines 118-228): load
the credential, then walk every configured series and its open events,
appending each event's rows to `rows_to_insert`.  The single cycle
timestamp `env.nowIso` is captured once and reused for every row. -/
def buildRows (env : Env) : Except String (List SnapshotRow) :=
  match load_private_key_from_env env with
  | .error e => .error e
  | .ok _ => rowsForAllSeries env SERIES_TICKERS

/-- Embedding of `run_snapshot()` (lines 118-234) with the sink state
threaded explicitly: the first component is the cycle's outcome (the
inserted rows, or the raised error), the second the list of batches the
sink has accepted so far.  Rows are inserted in one bulk call only at the
end of a fully successful cycle (lines 230-231); an empty cycle inserts
nothing. -/
def run_snapshot (env : Env) (sink : List (List SnapshotRow)) :
    Except String (List SnapshotRow) × List (List SnapshotRow) :=
  match buildRows env with
  | .error e => (.error e, sink)
  | .ok rows =>
    if rows.isEmpty then (.ok rows, sink)
    else
      match env.insertResp rows with
      | .ok _ => (.ok rows, sink ++ [rows])
      | .error e => (.error e, sink)

/-! ## The scheduling loop (`__main__`, lines 263-274) -/

/-- Observable actions of the worker loop: one blocking sleep per
iteration, then either a completed cycle or a caught-and-logged error. -/
inductive LoopAction
  | sleep
  | cycleDone
  | cycleError (msg : String)
deriving Repr, DecidableEq

structure LoopState where
  sink : List (List SnapshotRow)
  log : List LoopAction
deriving Repr, DecidableEq

/-- One iteration of the `while True` loop (lines 267-274): sleep until
the next 5-minute mark, then run the snapshot inside `try/except`; any
cycle error is caught, printed, and discarded, and the iteration ends
(returning control to the next sleep). -/
def loopStep (env : Env) (s : LoopState) : LoopState :=
  match run_snapshot env s.sink with
  | (.ok _, sink2) =>
    { sink := sink2, log := s.log ++ [LoopAction.sleep, LoopAction.cycleDone] }
  | (.error e, sink2) =>
    { sink := sink2, log := s.log ++ [LoopAction.sleep, LoopAction.cycleError e] }

/-- The first `n` iterations of the worker loop, starting from an empty
sink and log. -/
def loopRun (env : Env) : Nat → LoopState
  | 0 => { sink := [], log := [] }
  | n + 1 => loopStep env (loopRun env n)

/-! ## The scheduler clock (`sleep_until_next_5_min_mark`, lines 241-256)

`datetime.now(UTC)` is modelled by its time-of-day components; `replace`
never changes the date, so instants of one call stay within one day and
compare by `toMicros`. -/

structure WallClock where
  hour : Nat
  minute : Nat
  second : Nat
  micro : Nat
deriving Repr, DecidableEq

/-- Microseconds since the day's midnight. -/
def WallClock.toMicros (t : WallClock) : Nat :=
  ((t.hour * 60 + t.minute) * 60 + t.second) * 1000000 + t.micro

/-- The `next_run` computation of lines 243-251:
`next_minute = (floor(minute / 5) + 1) * 5`; on `next_minute == 60` the
hour advances modulo 24 with the date unchanged. -/
def next_run (now : WallClock) : WallClock :=
  let next_minute := (now.minute / 5 + 1) * 5
  if next_minute = 60 then
    { hour := (now.hour + 1) % 24, minute := 0, second := 0, micro := 0 }
  else
    { hour := now.hour, minute := next_minute, second := 0, micro := 0 }

/-- `sleep_seconds = (next_run - now).total_seconds()`, in microseconds
(negative when `next_run` is in the past). -/
def sleepMicros (now : WallClock) : Int :=
  ((next_run now).toMicros : Int) - (now.toMicros : Int)

/-! ## Statement-level notions used by the claims -/

/-- At least two distinct T markets exist in the event's filtered list. -/
def TwoDistinctT (em : List Market) : Prop :=
  ∃ m1, m1 ∈ em ∧ ∃ m2, m2 ∈ em ∧ isT m1 = true ∧ isT m2 = true ∧ m1 ≠ m2

/-- The ladder-ordering property the specification asserts for one
event's filtered market list: B markets sorted ascending by value sit in
the middle, a value-minimal T market (if any) comes first, a value-maximal
T market comes last exactly when a second distinct T market exists, and
the first and last ladder positions are never the same market. -/
def LadderOrderingSpec (em : List Market) : Prop :=
  (b_markets em).Perm (em.filter isB) ∧
  (b_markets em).Pairwise (fun a b => suffixValue a.suffix ≤ suffixValue b.suffix) ∧
  ((∀ m ∈ em, isT m = false) → ladderOf em = b_markets em) ∧
  ((∃ m ∈ em, isT m = true) →
    ∃ tmin rest2, ladderOf em = tmin :: rest2 ∧ tmin ∈ em ∧ isT tmin = true ∧
      (∀ m ∈ em, isT m = true → suffixValue tmin.suffix ≤ suffixValue m.suffix) ∧
      (¬ TwoDistinctT em → rest2 = b_markets em) ∧
      (TwoDistinctT em →
        ∃ tmax, rest2 = b_markets em ++ [tmax] ∧ tmax ∈ em ∧ isT tmax = true ∧
          tmax ≠ tmin ∧
          (∀ m ∈ em, isT m = true → suffixValue m.suffix ≤ suffixValue tmax.suffix)))

/-- The bucket-assignment property the specification asserts for the
classified ladder of one event: every B market is a `range` bucket
`[value, value + 1]`, the first ladder entry (when a T market exists) is
`below` with upper bound `value - 1` and no lower bound, the last entry
(when two distinct T markets exist) is `above` with lower bound
`value + 1` and no upper bound, and `order` is the 1-based position. -/
def BucketAssignmentSpec (em : List Market) : Prop :=
  (∀ e ∈ classifyLadder em, pyStartsWith 'B' e.suffix = true →
    e.bucket_type = some .range ∧
    e.lower_bound = some (suffixValue e.suffix) ∧
    e.upper_bound = some (suffixValue e.suffix + 1)) ∧
  ((∃ m ∈ em, isT m = true) →
    ∃ e rest2, classifyLadder em = e :: rest2 ∧ pyStartsWith 'T' e.suffix = true ∧
      e.bucket_type = some .below ∧ e.lower_bound = none ∧
      e.upper_bound = some (suffixValue e.suffix - 1) ∧ e.order = 1) ∧
  (TwoDistinctT em →
    ∃ e pre2, classifyLadder em = pre2 ++ [e] ∧ pyStartsWith 'T' e.suffix = true ∧
      e.bucket_type = some .above ∧ e.upper_bound = none ∧
      e.lower_bound = some (suffixValue e.suffix + 1) ∧
      e.order = (classifyLadder em).length) ∧
  (∀ i, ∀ h : i < (classifyLadder em).length,
    ((classifyLadder em).get ⟨i, h⟩).order = i + 1)

/-- The bucket-relevant fields of a persisted row: market suffix, bucket
type, bounds, ladder order. -/
def rowCore (r : SnapshotRow) :
    String × Option BucketType × Option Int × Option Int × Nat :=
  (r.market, r.bucket_type, r.lower_bound, r.upper_bound, r.order)

/-- The same fields of a classified ladder entry. -/
def entryCore (e : LadderEntry) :
    String × Option BucketType × Option Int × Option Int × Nat :=
  (e.suffix, e.bucket_type, e.lower_bound, e.upper_bound, e.order)

/-! ## Concrete inputs used by counterexamples and witnesses -/

/-- The specification's end-to-end example event: markets `X-B20`,
`X-B21`, `X-T15`, `X-T23`. -/
def exampleMarkets : List MarketJson :=
  [{ ticker := some "X-B20" }, { ticker := some "X-B21" },
   { ticker := some "X-T15" }, { ticker := some "X-T23" }]

/-- An environment whose `KALSHI_PRIVATE_KEY` variable is unset, with a
quiet venue and sink. -/
def envNoKey : Env :=
  { privateKeyEnv := none
    pemOk := fun _ => true
    eventsResp := fun _ => .ok []
    marketsResp := fun _ => .ok []
    orderbookResp := fun _ => .ok none
    insertResp := fun _ => .ok ()
    nowIso := "2026-10-12T15:00:00+00:00" }

/-- An environment with a valid credential and one open event whose
markets exist but whose order-book endpoint raises a network error. -/
def envDepthFail : Env :=
  { privateKeyEnv := some "PEM"
    pemOk := fun _ => true
    eventsResp := fun series =>
      if series = "KXHIGHNY" then
        .ok [{ event_ticker := some "KXHIGHNY-25JAN01", ticker := none }]
      else .ok []
    marketsResp := fun _ =>
      .ok [{ ticker := some "KXHIGHNY-25JAN01-T40" },
           { ticker := some "KXHIGHNY-25JAN01-B41" }]
    orderbookResp := fun _ => .error "network error"
    insertResp := fun _ => .ok ()
    nowIso := "2026-10-12T15:00:00+00:00" }

/-- An environment with a valid credential and a fixed two-sided order
book for every market. -/
def envQuiet : Env :=
  { privateKeyEnv := some "PEM"
    pemOk := fun _ => true
    eventsResp := fun _ => .ok []
    marketsResp := fun _ => .ok exampleMarkets
    orderbookResp := fun _ =>
      .ok (some { yes := some [(40, 10), (45, 5)], no := some [(50, 7)] })
    insertResp := fun _ => .ok ()
    nowIso := "2026-10-12T15:05:00+00:00" }

/-! # Helper lemmas -/

theorem pySplit_ne_nil (sep : Char) (l : List Char) : pySplit sep l ≠ [] := by
  cases l with
  | nil => simp [pySplit]
  | cons c rest =>
    simp only [pySplit]
    split
    · simp
    · split <;> simp_all

/-- The first segment of a split is the longest separator-free prefix. -/
theorem pySplit_head_eq_takeWhile (sep : Char) (l : List Char) :
    (pySplit sep l).headD [] = l.takeWhile (fun c => c != sep) := by
  induction l with
  | nil => simp [pySplit]
  | cons c rest ih =>
    simp only [pySplit, List.takeWhile_cons]
    by_cases h : c = sep
    · simp [h]
    · have hb : (c != sep) = true := by simpa using h
      simp only [if_neg h, hb, if_pos]
      cases hsplit : pySplit sep rest with
      | nil => exact absurd hsplit (pySplit_ne_nil sep rest)
      | cons s ss =>
        simp only [List.headD_cons]
        rw [← ih, hsplit]
        simp

theorem pyFirstSeg_eq_takeWhile (sep : Char) (s : String) :
    pyFirstSeg sep s = String.mk (s.data.takeWhile (fun c => c != sep)) := by
  unfold pyFirstSeg
  rw [pySplit_head_eq_takeWhile]

theorem ordInsert_perm (le : α → α → Bool) (a : α) (l : List α) :
    (ordInsert le a l).Perm (a :: l) := by
  induction l with
  | nil => simp [ordInsert]
  | cons b l ih =>
    simp only [ordInsert]
    by_cases hab : le a b = true
    · rw [if_pos hab]
    · rw [if_neg hab]
      exact (ih.cons b).trans (List.Perm.swap a b l)

theorem pySorted_perm (le : α → α → Bool) (l : List α) :
    (pySorted le l).Perm l := by
  induction l with
  | nil => simp [pySorted]
  | cons a l ih =>
    exact (ordInsert_perm le a (pySorted le l)).trans (ih.cons a)

theorem pairwise_ordInsert (le : α → α → Bool)
    (total : ∀ a b, le a b = true ∨ le b a = true)
    (htrans : ∀ a b c, le a b = true → le b c = true → le a c = true)
    (a : α) (l : List α) (h : l.Pairwise (fun x y => le x y = true)) :
    (ordInsert le a l).Pairwise (fun x y => le x y = true) := by
  induction l with
  | nil => simp [ordInsert]
  | cons b l ih =>
    simp only [ordInsert]
    obtain ⟨hb, hl⟩ := List.pairwise_cons.mp h
    by_cases hab : le a b = true
    · rw [if_pos hab]
      refine List.Pairwise.cons ?_ h
      intro x hx
      rcases List.mem_cons.mp hx with rfl | hx
      · exact hab
      · exact htrans a b x hab (hb x hx)
    · rw [if_neg hab]
      have hba : le b a = true := by
        rcases total a b with h1 | h1
        · exact absurd h1 hab
        · exact h1
      refine List.Pairwise.cons ?_ (ih hl)
      intro x hx
      rcases List.mem_cons.mp ((ordInsert_perm le a l).mem_iff.mp hx) with rfl | hx2
      · exact hba
      · exact hb x hx2

theorem pySorted_pairwise (le : α → α → Bool)
    (total : ∀ a b, le a b = true ∨ le b a = true)
    (htrans : ∀ a b c, le a b = true → le b c = true → le a c = true)
    (l : List α) :
    (pySorted le l).Pairwise (fun x y => le x y = true) := by
  induction l with
  | nil => simp [pySorted]
  | cons a l ih => exact pairwise_ordInsert le total htrans a _ ih

/-! # Claims -/

/-- **C5**: for every order book, `yes_bids` is the reversed `yes` array
truncated to at most 5 entries, and `yes_asks` has at most 5 entries,
each derived from a no-bid level by `ask_price = 100 - bid_price` with
quantity unchanged, sorted ascending by the derived ask price. -/
theorem C5_depth_extraction (ob : Orderbook) :
    (extract_depth ob).1 = (ob.yes.getD []).reverse.take 5 ∧
    (extract_depth ob).1.length ≤ 5 ∧
    (extract_depth ob).2.length ≤ 5 ∧
    (extract_depth ob).2.Perm
      (((ob.no.getD []).reverse.take 5).map (fun pq => (100 - pq.1, pq.2))) ∧
    (extract_depth ob).2.Pairwise (fun a b => a.1 ≤ b.1) := by
  have hlen :
      (pySorted (fun a b : Int × Int => decide (a.1 ≤ b.1))
        (((ob.no.getD []).reverse.take 5).map (fun pq => (100 - pq.1, pq.2)))).length ≤ 5 := by
    rw [(pySorted_perm _ _).length_eq, List.length_map]
    exact List.length_take_le 5 _
  have htake :
      (pySorted (fun a b : Int × Int => decide (a.1 ≤ b.1))
        (((ob.no.getD []).reverse.take 5).map (fun pq => (100 - pq.1, pq.2)))).take 5 =
      pySorted (fun a b : Int × Int => decide (a.1 ≤ b.1))
        (((ob.no.getD []).reverse.take 5).map (fun pq => (100 - pq.1, pq.2))) :=
    List.take_of_length_le hlen
  refine ⟨rfl, List.length_take_le 5 _, ?_, ?_, ?_⟩
  · show ((pySorted _ _).take 5).length ≤ 5
    exact List.length_take_le 5 _
  · show ((pySorted _ _).take 5).Perm _
    rw [htake]
    exact pySorted_perm _ _
  · show ((pySorted _ _).take 5).Pairwise _
    rw [htake]
    have hp := pySorted_pairwise (fun a b : Int × Int => decide (a.1 ≤ b.1))
      (fun a b => by
        rcases le_total a.1 b.1 with h | h
        · exact Or.inl (by simpa using h)
        · exact Or.inr (by simpa using h))
      (fun a b c hab hbc => by
        have h1 : a.1 ≤ b.1 := by simpa using hab
        have h2 : b.1 ≤ c.1 := by simpa using hbc
        simpa using le_trans h1 h2)
      (((ob.no.getD []).reverse.take 5).map (fun pq => (100 - pq.1, pq.2)))
    exact hp.imp (fun h => by simpa using h)

/-- **C8**: an order book with an absent or empty `yes`/`no` array yields
an empty bid/ask list for that side, and a response without an
`orderbook` field yields empty lists on both sides; none of these raise. -/
theorem C8_absent_sides (ob : Orderbook) :
    ((ob.yes = none ∨ ob.yes = some []) → (extract_depth ob).1 = []) ∧
    ((ob.no = none ∨ ob.no = some []) → (extract_depth ob).2 = []) ∧
    extract_depth (orderbook_of_response none) = ([], []) := by
  refine ⟨?_, ?_, rfl⟩ <;> rintro (h | h) <;> simp [extract_depth, h, pySorted]

/-- Witness for C8 at a concrete order book with a null `yes` side and an
empty `no` side. -/
theorem C8_witness :
    (extract_depth { yes := none, no := some [] }).1 = [] ∧
    (extract_depth { yes := none, no := some [] }).2 = [] :=
  ⟨(C8_absent_sides { yes := none, no := some [] }).1 (Or.inl rfl),
   (C8_absent_sides { yes := none, no := some [] }).2.1 (Or.inr rfl)⟩

/-- **C7**: the signed message is exactly
`timestamp ++ method ++ path-without-query`, where the timestamp is the
call-time clock in whole milliseconds and the query string is stripped by
splitting the path on the first question mark; the stripped path is the
longest question-mark-free prefix of the path. -/
theorem C7_signed_message (sign : String → String) (apiKeyId : Option String)
    (nowMs : Nat) (method path : String) :
    (get_headers sign apiKeyId nowMs method path).signature =
      sign (toString nowMs ++ method ++ pyFirstSeg '?' path) ∧
    (get_headers sign apiKeyId nowMs method path).timestamp = toString nowMs ∧
    pyFirstSeg '?' path = String.mk (path.data.takeWhile (fun c => c != '?')) ∧
    (pyFirstSeg '?' path).data.all (fun c => c != '?') = true ∧
    path.data = (pyFirstSeg '?' path).data ++ path.data.dropWhile (fun c => c != '?') := by
  refine ⟨rfl, rfl, pyFirstSeg_eq_takeWhile '?' path, ?_, ?_⟩
  · rw [pyFirstSeg_eq_takeWhile]
    rw [List.all_eq_true]
    intro c hc
    have hc2 : c ∈ path.data.takeWhile (fun c => c != '?') := hc
    exact List.mem_takeWhile_imp (p := fun c => c != '?') hc2
  · rw [pyFirstSeg_eq_takeWhile]
    exact (List.takeWhile_append_dropWhile _ _).symm

/-! ## Helper lemmas about the sorted partitions and the ladder -/

theorem t_markets_perm (em : List Market) : (t_markets em).Perm (em.filter isT) :=
  pySorted_perm _ _

theorem b_markets_perm (em : List Market) : (b_markets em).Perm (em.filter isB) :=
  pySorted_perm _ _

theorem sortByValue_pairwise (ms : List Market) :
    (sortByValue ms).Pairwise
      (fun a b => suffixValue a.suffix ≤ suffixValue b.suffix) := by
  have hp := pySorted_pairwise
    (fun a b : Market => decide (suffixValue a.suffix ≤ suffixValue b.suffix))
    (fun a b => by
      rcases le_total (suffixValue a.suffix) (suffixValue b.suffix) with h | h
      · exact Or.inl (by simpa using h)
      · exact Or.inr (by simpa using h))
    (fun a b c hab hbc => by
      have h1 : suffixValue a.suffix ≤ suffixValue b.suffix := by simpa using hab
      have h2 : suffixValue b.suffix ≤ suffixValue c.suffix := by simpa using hbc
      simpa using le_trans h1 h2)
    ms
  exact hp.imp (fun h => by simpa using h)

theorem mem_t_markets {em : List Market} {m : Market} :
    m ∈ t_markets em ↔ m ∈ em ∧ isT m = true := by
  rw [(t_markets_perm em).mem_iff, List.mem_filter]

theorem mem_b_markets {em : List Market} {m : Market} :
    m ∈ b_markets em ↔ m ∈ em ∧ isB m = true := by
  rw [(b_markets_perm em).mem_iff, List.mem_filter]

theorem t_markets_nodup {em : List Market} (h : em.Nodup) :
    (t_markets em).Nodup :=
  ((t_markets_perm em).nodup_iff).mpr (h.filter _)

theorem t_head_min {em : List Market} {m0 : Market} {rest : List Market}
    (h : t_markets em = m0 :: rest) :
    ∀ m ∈ em, isT m = true → suffixValue m0.suffix ≤ suffixValue m.suffix := by
  intro m hm hT
  have hmem : m ∈ t_markets em := mem_t_markets.mpr ⟨hm, hT⟩
  rw [h] at hmem
  rcases List.mem_cons.mp hmem with rfl | hmem
  · exact le_refl _
  · have hp := sortByValue_pairwise (em.filter isT)
    rw [show sortByValue (em.filter isT) = t_markets em from rfl, h] at hp
    exact (List.pairwise_cons.mp hp).1 m hmem

theorem pairwise_le_getLast {α : Type _} {R : α → α → Prop} (hrefl : ∀ a, R a a) :
    ∀ (l : List α) (_ : l.Pairwise R) (hne : l ≠ []) (m : α), m ∈ l →
      R m (l.getLast hne)
  | [], _, hne, _, _ => absurd rfl hne
  | [a], _, _, m, hm => by
    rcases List.mem_singleton.mp hm with rfl
    simpa using hrefl m
  | a :: b :: l, hl, hne, m, hm => by
    obtain ⟨ha, htail⟩ := List.pairwise_cons.mp hl
    have hlast : (a :: b :: l).getLast hne = (b :: l).getLast (by simp) :=
      List.getLast_cons (by simp)
    rcases List.mem_cons.mp hm with rfl | hm2
    · rw [hlast]
      exact ha _ (List.getLast_mem (by simp))
    · rw [hlast]
      exact pairwise_le_getLast hrefl (b :: l) htail (by simp) m hm2

theorem t_getLast_max {em : List Market} (hne : t_markets em ≠ []) :
    ∀ m ∈ em, isT m = true →
      suffixValue m.suffix ≤ suffixValue ((t_markets em).getLast hne).suffix := by
  intro m hm hT
  have hp := sortByValue_pairwise (em.filter isT)
  exact pairwise_le_getLast
    (R := fun a b : Market => suffixValue a.suffix ≤ suffixValue b.suffix)
    (fun a => le_refl _) (t_markets em) hp hne m
    (mem_t_markets.mpr ⟨hm, hT⟩)

theorem twoDistinctT_iff {em : List Market} (hnd : em.Nodup) :
    TwoDistinctT em ↔ 1 < (t_markets em).length := by
  constructor
  · rintro ⟨m1, h1, m2, h2, hT1, hT2, hne12⟩
    have hm1 : m1 ∈ t_markets em := mem_t_markets.mpr ⟨h1, hT1⟩
    have hm2 : m2 ∈ t_markets em := mem_t_markets.mpr ⟨h2, hT2⟩
    cases ht : t_markets em with
    | nil => rw [ht] at hm1; exact absurd hm1 (List.not_mem_nil m1)
    | cons a rest =>
      cases rest with
      | nil =>
        rw [ht] at hm1 hm2
        rcases List.mem_singleton.mp hm1 with rfl
        rcases List.mem_singleton.mp hm2 with rfl
        exact absurd rfl hne12
      | cons b rest2 => simp
  · intro hlen
    cases ht : t_markets em with
    | nil => rw [ht] at hlen; simp at hlen
    | cons a rest =>
      cases rest with
      | nil => rw [ht] at hlen; simp at hlen
      | cons b rest2 =>
        have hnd2 := t_markets_nodup hnd
        rw [ht] at hnd2
        have hab : a ≠ b := by
          intro hcontra
          rcases List.nodup_cons.mp hnd2 with ⟨hnotmem, _⟩
          exact hnotmem (hcontra ▸ List.mem_cons_self b rest2)
        have ha : a ∈ t_markets em := ht ▸ List.mem_cons_self a (b :: rest2)
        have hb : b ∈ t_markets em :=
          ht ▸ List.mem_cons_of_mem a (List.mem_cons_self b rest2)
        obtain ⟨ha1, ha2⟩ := mem_t_markets.mp ha
        obtain ⟨hb1, hb2⟩ := mem_t_markets.mp hb
        exact ⟨a, ha1, b, hb1, ha2, hb2, hab⟩

theorem ladder_t_nil {em : List Market} (h : t_markets em = []) :
    ladderOf em = b_markets em := by
  simp [ladderOf, h]

theorem ladder_t_single {em : List Market} {m0 : Market}
    (h : t_markets em = [m0]) : ladderOf em = m0 :: b_markets em := by
  simp [ladderOf, h]

theorem ladder_t_two {em : List Market} {m0 : Market} {rest : List Market}
    (h : t_markets em = m0 :: rest) (hne : rest ≠ []) :
    ladderOf em = m0 :: (b_markets em ++ [rest.getLast hne]) := by
  unfold ladderOf
  rw [h]
  have hlen : (m0 :: rest).length > 1 := by
    cases rest with
    | nil => exact absurd rfl hne
    | cons b r2 => simp
  show (m0 :: rest).head?.toList ++ b_markets em ++
      (if (m0 :: rest).length > 1 then (m0 :: rest).getLast?.toList else []) = _
  rw [if_pos hlen]
  have hgl : (m0 :: rest).getLast? = some (rest.getLast hne) := by
    rw [List.getLast?_eq_getLast _ (by simp), List.getLast_cons hne]
  rw [hgl]
  simp

theorem mem_ladder {em : List Market} {m : Market} (h : m ∈ ladderOf em) :
    m ∈ em := by
  unfold ladderOf at h
  rcases List.mem_append.mp h with h1 | h2
  · rcases List.mem_append.mp h1 with ha | hb
    · cases ht : t_markets em with
      | nil => rw [ht] at ha; simp at ha
      | cons a rest =>
        rw [ht] at ha
        simp only [List.head?_cons, Option.toList_some, List.mem_singleton] at ha
        subst ha
        have hm : m ∈ t_markets em := by rw [ht]; exact List.mem_cons_self _ _
        exact (mem_t_markets.mp hm).1
    · exact (mem_b_markets.mp hb).1
  · by_cases hcond : (t_markets em).length > 1
    · rw [if_pos hcond] at h2
      cases ht : (t_markets em).getLast? with
      | none => rw [ht] at h2; simp at h2
      | some a =>
        rw [ht] at h2
        simp only [Option.toList_some, List.mem_singleton] at h2
        subst h2
        have hne : t_markets em ≠ [] := by
          intro h0; rw [h0] at ht; simp at ht
        have : (t_markets em).getLast hne ∈ t_markets em := List.getLast_mem hne
        rw [List.getLast?_eq_getLast _ hne] at ht
        rcases Option.some_inj.mp ht with rfl
        exact (mem_t_markets.mp this).1
    · rw [if_neg hcond] at h2
      simp at h2

/-! ## Helper lemmas about `classifyFrom` -/

theorem classifyFrom_length (t : List Market) :
    ∀ (l : List Market) (k : Nat), (classifyFrom t k l).length = l.length := by
  intro l
  induction l with
  | nil => intro k; rfl
  | cons m rest ih => intro k; simp [classifyFrom, ih]

theorem mem_classifyFrom {t : List Market} :
    ∀ {k : Nat} {l : List Market} {e : LadderEntry}, e ∈ classifyFrom t k l →
      ∃ j m, m ∈ l ∧ e = mkEntry t j m := by
  intro k l
  induction l generalizing k with
  | nil => intro e h; simp [classifyFrom] at h
  | cons m rest ih =>
    intro e h
    rcases List.mem_cons.mp h with rfl | h2
    · exact ⟨k, m, List.mem_cons_self m rest, rfl⟩
    · obtain ⟨j, m2, hm2, he⟩ := ih h2
      exact ⟨j, m2, List.mem_cons_of_mem m hm2, he⟩

theorem classifyFrom_append (t : List Market) :
    ∀ (l1 l2 : List Market) (k : Nat),
      classifyFrom t k (l1 ++ l2) =
        classifyFrom t k l1 ++ classifyFrom t (k + l1.length) l2 := by
  intro l1
  induction l1 with
  | nil => intro l2 k; simp [classifyFrom]
  | cons m rest ih =>
    intro l2 k
    simp only [List.cons_append, classifyFrom, List.append_eq]
    rw [ih l2 (k + 1), List.length_cons]
    have h2 : k + 1 + rest.length = k + (rest.length + 1) := by omega
    rw [h2]

theorem classifyFrom_order (t : List Market) :
    ∀ (l : List Market) (k i : Nat) (h : i < (classifyFrom t k l).length),
      ((classifyFrom t k l).get ⟨i, h⟩).order = k + i + 1 := by
  intro l
  induction l with
  | nil => intro k i h; simp [classifyFrom] at h
  | cons m rest ih =>
    intro k i h
    cases i with
    | zero => simp [classifyFrom, mkEntry]
    | succ i2 =>
      have h2 : i2 < (classifyFrom t (k + 1) rest).length := by
        simpa [classifyFrom] using Nat.lt_of_succ_lt_succ (by simpa [classifyFrom] using h)
      have := ih (k + 1) i2 h2
      simp only [classifyFrom, List.get_cons_succ]
      rw [show ((classifyFrom t (k+1) rest).get ⟨i2, h2⟩).order = k + 1 + i2 + 1 from this]
      omega

theorem isT_not_isB {m : Market} (h : isT m = true) :
    pyStartsWith 'B' m.suffix = false := by
  simp only [isT, pyStartsWith, decide_eq_true_eq] at h
  simp [pyStartsWith, h]

/-- **C3**: within one event the constructed ladder is the lowest-valued
T market first (when a T market exists), then all B markets ascending by
numeric suffix value, then a highest-valued T market last exactly when a
second distinct T market exists; a sole T market is used as the below
bound only, and the first and last ladder positions are never the same
market.  The market list carries no duplicate entries (tickers are unique
per the data model) and each suffix value parses (otherwise the sorts
would raise before any ladder is constructed). -/
theorem C3_ladder_ordering (em : List Market) (hnd : em.Nodup)
    (hp : allParse em = true) : LadderOrderingSpec em := by
  refine ⟨b_markets_perm em, sortByValue_pairwise _, ?_, ?_⟩
  · intro hnoT
    apply ladder_t_nil
    have hfil : em.filter isT = [] := by
      rw [List.filter_eq_nil_iff]
      intro m hm
      simp [hnoT m hm]
    show sortByValue (em.filter isT) = []
    rw [hfil]
    rfl
  · rintro ⟨mT, hmT, hTT⟩
    have hne : t_markets em ≠ [] := by
      intro h0
      have hmem : mT ∈ t_markets em := mem_t_markets.mpr ⟨hmT, hTT⟩
      rw [h0] at hmem
      exact List.not_mem_nil mT hmem
    obtain ⟨m0, rest, ht⟩ := List.exists_cons_of_ne_nil hne
    have hm0 : m0 ∈ t_markets em := by rw [ht]; exact List.mem_cons_self _ _
    obtain ⟨hm0em, hm0T⟩ := mem_t_markets.mp hm0
    cases rest with
    | nil =>
      refine ⟨m0, b_markets em, ladder_t_single ht, hm0em, hm0T,
        t_head_min ht, fun _ => rfl, ?_⟩
      intro htwo
      rw [twoDistinctT_iff hnd, ht] at htwo
      simp at htwo
    | cons b r2 =>
      have hbne : (b :: r2) ≠ ([] : List Market) := by simp
      refine ⟨m0, b_markets em ++ [(b :: r2).getLast hbne],
        ladder_t_two ht hbne, hm0em, hm0T, t_head_min ht, ?_, ?_⟩
      · intro hnotwo
        exfalso
        apply hnotwo
        rw [twoDistinctT_iff hnd, ht]
        simp
      · intro _
        have hq : (t_markets em).getLast? = some ((b :: r2).getLast hbne) := by
          rw [ht, List.getLast?_eq_getLast _ (by simp), List.getLast_cons hbne]
        have hq2 : (t_markets em).getLast? = some ((t_markets em).getLast hne) :=
          List.getLast?_eq_getLast _ hne
        have heq : (t_markets em).getLast hne = (b :: r2).getLast hbne :=
          Option.some_inj.mp (hq2.symm.trans hq)
        have hmemt : (b :: r2).getLast hbne ∈ t_markets em := by
          rw [ht]
          exact List.mem_cons_of_mem m0 (List.getLast_mem hbne)
        obtain ⟨hmaxem, hmaxT⟩ := mem_t_markets.mp hmemt
        have hndt := t_markets_nodup hnd
        rw [ht] at hndt
        have hnotm0 : m0 ∉ (b :: r2) := (List.nodup_cons.mp hndt).1
        refine ⟨(b :: r2).getLast hbne, rfl, hmaxem, hmaxT, ?_, ?_⟩
        · intro hcontra
          exact hnotm0 (hcontra ▸ List.getLast_mem hbne)
        · intro m hm hT
          have := t_getLast_max hne m hm hT
          rwa [heq] at this

/-- Witness for C3 at the specification's example event
(`X-B20`, `X-B21`, `X-T15`, `X-T23`). -/
theorem C3_witness :
    (filterMarkets exampleMarkets).Nodup ∧
    allParse (filterMarkets exampleMarkets) = true ∧
    LadderOrderingSpec (filterMarkets exampleMarkets) :=
  ⟨by decide, by decide, C3_ladder_ordering _ (by decide) (by decide)⟩

/-- **C4**: every B market in the ladder becomes a `range` bucket
`[value, value + 1]`, the first T market becomes `below` with upper bound
`value - 1` and no lower bound, the last T market (when distinct from the
first) becomes `above` with lower bound `value + 1` and no upper bound,
`order` is the 1-based ladder position, and the example event `X-B20`,
`X-B21`, `X-T15`, `X-T23` classifies to
`[T15(below, upper=14), B20(range, 20-21), B21(range, 21-22),
T23(above, lower=24)]` with order 1..4.  Hypotheses as in C3: no
duplicate market entries, and every suffix value parses. -/
theorem C4_bucket_assignment (em : List Market) (hnd : em.Nodup)
    (hp : allParse em = true) :
    classifyEvent em = .ok (classifyLadder em) ∧
    BucketAssignmentSpec em ∧
    classifyLadder (filterMarkets exampleMarkets) =
      [{ ticker := "X-T15", suffix := "T15", bucket_type := some .below,
         lower_bound := none, upper_bound := some 14, order := 1 },
       { ticker := "X-B20", suffix := "B20", bucket_type := some .range,
         lower_bound := some 20, upper_bound := some 21, order := 2 },
       { ticker := "X-B21", suffix := "B21", bucket_type := some .range,
         lower_bound := some 21, upper_bound := some 22, order := 3 },
       { ticker := "X-T23", suffix := "T23", bucket_type := some .above,
         lower_bound := some 24, upper_bound := none, order := 4 }] := by
  refine ⟨by simp [classifyEvent, hp], ⟨?_, ?_, ?_, ?_⟩, by decide⟩
  · intro e he hB
    obtain ⟨j, m, hm, rfl⟩ := mem_classifyFrom he
    simp only [mkEntry] at hB ⊢
    simp [assignBucket, hB]
  · rintro ⟨mT, hmT, hTT⟩
    have hne : t_markets em ≠ [] := by
      intro h0
      have hmem : mT ∈ t_markets em := mem_t_markets.mpr ⟨hmT, hTT⟩
      rw [h0] at hmem
      exact List.not_mem_nil mT hmem
    obtain ⟨m0, rest, ht⟩ := List.exists_cons_of_ne_nil hne
    have hm0 : m0 ∈ t_markets em := by rw [ht]; exact List.mem_cons_self _ _
    obtain ⟨hm0em, hm0T⟩ := mem_t_markets.mp hm0
    have hm0T2 : pyStartsWith 'T' m0.suffix = true := hm0T
    have hladder : ∃ tail, ladderOf em = m0 :: tail := by
      cases rest with
      | nil => exact ⟨b_markets em, ladder_t_single ht⟩
      | cons b r2 =>
        exact ⟨b_markets em ++ [(b :: r2).getLast (by simp)],
          ladder_t_two ht (by simp)⟩
    obtain ⟨tail, hlad⟩ := hladder
    refine ⟨mkEntry (t_markets em) 0 m0, classifyFrom (t_markets em) 1 tail,
      ?_, hm0T2, ?_, ?_, ?_, rfl⟩
    · unfold classifyLadder
      rw [hlad]
      rfl
    · simp [mkEntry, assignBucket, isT_not_isB hm0T, hm0T2, ht]
    · simp [mkEntry, assignBucket, isT_not_isB hm0T, hm0T2, ht]
    · simp [mkEntry, assignBucket, isT_not_isB hm0T, hm0T2, ht]
  · intro htwo
    have hlen := (twoDistinctT_iff hnd).mp htwo
    cases ht : t_markets em with
    | nil => rw [ht] at hlen; simp at hlen
    | cons m0 rest =>
      cases rest with
      | nil => rw [ht] at hlen; simp at hlen
      | cons b r2 =>
        have hbne : (b :: r2) ≠ ([] : List Market) := by simp
        have hlad := ladder_t_two ht hbne
        have hmemt : (b :: r2).getLast hbne ∈ t_markets em := by
          rw [ht]
          exact List.mem_cons_of_mem m0 (List.getLast_mem hbne)
        obtain ⟨hmaxem, hmaxT⟩ := mem_t_markets.mp hmemt
        have hmaxT2 : pyStartsWith 'T' ((b :: r2).getLast hbne).suffix = true := hmaxT
        have hndt := t_markets_nodup hnd
        rw [ht] at hndt
        have hmaxne : (b :: r2).getLast hbne ≠ m0 := by
          intro hcontra
          exact (List.nodup_cons.mp hndt).1 (hcontra ▸ List.getLast_mem hbne)
        have hsplit : classifyLadder em =
            classifyFrom (t_markets em) 0 (m0 :: b_markets em) ++
            [mkEntry (t_markets em) (0 + (m0 :: b_markets em).length)
              ((b :: r2).getLast hbne)] := by
          unfold classifyLadder
          rw [hlad]
          rw [show m0 :: (b_markets em ++ [(b :: r2).getLast hbne]) =
            (m0 :: b_markets em) ++ [(b :: r2).getLast hbne] by simp]
          rw [classifyFrom_append]
          rfl
        have hordlen : (classifyLadder em).length = (m0 :: b_markets em).length + 1 := by
          rw [hsplit, List.length_append, classifyFrom_length]
          simp
        refine ⟨mkEntry (t_markets em) (0 + (m0 :: b_markets em).length)
            ((b :: r2).getLast hbne),
          classifyFrom (t_markets em) 0 (m0 :: b_markets em), hsplit,
          hmaxT2, ?_, ?_, ?_, ?_⟩
        · have hhd : (t_markets em).head? = some m0 := by rw [ht]; rfl
          simp [mkEntry, assignBucket, isT_not_isB hmaxT, hmaxT2, hhd, hmaxne,
            Ne.symm hmaxne]
        · have hhd : (t_markets em).head? = some m0 := by rw [ht]; rfl
          simp [mkEntry, assignBucket, isT_not_isB hmaxT, hmaxT2, hhd, hmaxne,
            Ne.symm hmaxne]
        · have hhd : (t_markets em).head? = some m0 := by rw [ht]; rfl
          simp [mkEntry, assignBucket, isT_not_isB hmaxT, hmaxT2, hhd, hmaxne,
            Ne.symm hmaxne]
        · rw [hordlen]
          simp [mkEntry]
  · intro i h
    have h2 : i < (classifyFrom (t_markets em) 0 (ladderOf em)).length := h
    have := classifyFrom_order (t_markets em) (ladderOf em) 0 i h2
    simpa using this

/-- Witness for C4 at the specification's example event. -/
theorem C4_witness :
    (filterMarkets exampleMarkets).Nodup ∧
    allParse (filterMarkets exampleMarkets) = true ∧
    (classifyEvent (filterMarkets exampleMarkets) =
        .ok (classifyLadder (filterMarkets exampleMarkets)) ∧
      BucketAssignmentSpec (filterMarkets exampleMarkets) ∧
      classifyLadder (filterMarkets exampleMarkets) =
        [{ ticker := "X-T15", suffix := "T15", bucket_type := some .below,
           lower_bound := none, upper_bound := some 14, order := 1 },
         { ticker := "X-B20", suffix := "B20", bucket_type := some .range,
           lower_bound := some 20, upper_bound := some 21, order := 2 },
         { ticker := "X-B21", suffix := "B21", bucket_type := some .range,
           lower_bound := some 21, upper_bound := some 22, order := 3 },
         { ticker := "X-T23", suffix := "T23", bucket_type := some .above,
           lower_bound := some 24, upper_bound := none, order := 4 }]) :=
  ⟨by decide, by decide, C4_bucket_assignment _ (by decide) (by decide)⟩

/-! ## Helper lemmas about row building -/

theorem rowForEntry_core {env : Env} {ts : String} {et : Option String}
    {e : LadderEntry} {r : SnapshotRow}
    (h : rowForEntry env ts et e = .ok r) : rowCore r = entryCore e := by
  unfold rowForEntry at h
  split at h
  · exact absurd h (by simp)
  · injection h with h2
    subst h2
    rfl

theorem rowsForEntries_core {env : Env} {ts : String} {et : Option String} :
    ∀ {entries : List LadderEntry} {rows : List SnapshotRow},
      rowsForEntries env ts et entries = .ok rows →
      rows.map rowCore = entries.map entryCore := by
  intro entries
  induction entries with
  | nil =>
    intro rows h
    unfold rowsForEntries at h
    injection h with h2
    subst h2
    rfl
  | cons e rest ih =>
    intro rows h
    unfold rowsForEntries at h
    split at h
    · exact absurd h (by simp)
    · rename_i r hr
      split at h
      · exact absurd h (by simp)
      · rename_i rs hrs
        injection h with h2
        subst h2
        simp only [List.map]
        rw [rowForEntry_core hr, ih hrs]

theorem classifyRows_core {env : Env} {ts : String} {et : Option String}
    {em : List Market} {rows : List SnapshotRow}
    (h : classifyRows env ts et em = .ok rows) :
    rows.map rowCore = (classifyLadder em).map entryCore := by
  unfold classifyRows at h
  split at h
  · simp at h
  · rename_i entries hentries
    have heq : entries = classifyLadder em := by
      unfold classifyEvent at hentries
      split at hentries
      · injection hentries with h2
        exact h2.symm
      · simp at hentries
    subst heq
    exact rowsForEntries_core h

theorem mem_filterMarkets {markets : List MarketJson} {m : Market}
    (h : m ∈ filterMarkets markets) :
    ∃ mj ∈ markets, mj.ticker = some m.ticker ∧
      m.suffix = pyLastSeg '-' m.ticker := by
  unfold filterMarkets at h
  obtain ⟨mj, hmj, hf⟩ := List.mem_filterMap.mp h
  split at hf
  · simp at hf
  · rename_i t hticker
    split at hf
    · simp at hf
    · have hf2 : (if (pyStartsWith 'B' (pyLastSeg '-' t) ||
          pyStartsWith 'T' (pyLastSeg '-' t)) = true then
          some { ticker := t, suffix := pyLastSeg '-' t } else none) = some m := hf
      split at hf2
      · injection hf2 with hf3
        subst hf3
        exact ⟨mj, hmj, hticker, rfl⟩
      · simp at hf2

/-- **C9**: classifying the same market list in two different cycles
(different environments, timestamps and event tickers) yields rows with
identical market suffix, bucket type, bounds and order values — the
classification is a pure, deterministic function of the market list. -/
theorem C9_classification_deterministic (env1 env2 : Env) (ts1 ts2 : String)
    (et1 et2 : Option String) (em : List Market)
    (rows1 rows2 : List SnapshotRow)
    (h1 : classifyRows env1 ts1 et1 em = .ok rows1)
    (h2 : classifyRows env2 ts2 et2 em = .ok rows2) :
    rows1.map rowCore = rows2.map rowCore := by
  rw [classifyRows_core h1, classifyRows_core h2]

/-- Witness for C9: the example event classified in two cycles with
different timestamps. -/
theorem C9_witness :
    ∃ rows1 rows2,
      classifyRows envQuiet "2026-10-12T15:05:00+00:00" (some "X")
        (filterMarkets exampleMarkets) = .ok rows1 ∧
      classifyRows envQuiet "2026-10-12T15:10:00+00:00" (some "X")
        (filterMarkets exampleMarkets) = .ok rows2 ∧
      rows1.map rowCore = rows2.map rowCore :=
  ⟨_, _, rfl, rfl,
    C9_classification_deterministic envQuiet envQuiet
      "2026-10-12T15:05:00+00:00" "2026-10-12T15:10:00+00:00"
      (some "X") (some "X") (filterMarkets exampleMarkets) _ _ rfl rfl⟩

/-- **C10**: every persisted row's `market` field is only the ticker's
last `-`-delimited segment (the suffix), and market entries without a
`ticker` field are silently skipped by the filter. -/
theorem C10_market_is_suffix (env : Env) (ts : String) (et : Option String)
    (markets : List MarketJson) (rows : List SnapshotRow)
    (h : classifyRows env ts et (filterMarkets markets) = .ok rows) :
    (∀ r ∈ rows, ∃ t, (∃ mj ∈ markets, mj.ticker = some t) ∧
      r.market = pyLastSeg '-' t) ∧
    (∀ ms : List MarketJson,
      filterMarkets ({ ticker := none } :: ms) = filterMarkets ms) := by
  refine ⟨?_, fun ms => rfl⟩
  intro r hr
  have hmap := classifyRows_core h
  have h1 : rowCore r ∈ (classifyLadder (filterMarkets markets)).map entryCore := by
    rw [← hmap]
    exact List.mem_map_of_mem rowCore hr
  obtain ⟨e, he, hcore⟩ := List.mem_map.mp h1
  obtain ⟨j, m, hm, rfl⟩ := mem_classifyFrom he
  have hmem : m ∈ filterMarkets markets := mem_ladder hm
  obtain ⟨mj, hmj, hticker, hsuffix⟩ := mem_filterMarkets hmem
  refine ⟨m.ticker, ⟨mj, hmj, hticker⟩, ?_⟩
  have hms : m.suffix = r.market := congrArg Prod.fst hcore
  rw [← hms, hsuffix]

/-- Witness for C10: the example event plus one tickerless market entry. -/
theorem C10_witness :
    ∃ rows,
      classifyRows envQuiet "2026-10-12T15:05:00+00:00" (some "X")
        (filterMarkets ({ ticker := none } :: exampleMarkets)) = .ok rows ∧
      ((∀ r ∈ rows, ∃ t,
          (∃ mj ∈ ({ ticker := none } :: exampleMarkets), mj.ticker = some t) ∧
          r.market = pyLastSeg '-' t) ∧
       (∀ ms : List MarketJson,
         filterMarkets ({ ticker := none } :: ms) = filterMarkets ms)) :=
  ⟨_, rfl, C10_market_is_suffix envQuiet "2026-10-12T15:05:00+00:00" (some "X")
    ({ ticker := none } :: exampleMarkets) _ rfl⟩

/-- **C2** (code evaluated at the failing input): the two spec instances
hold — 12:07:31 yields 12:10:00 and exactly 12:10:00 yields 12:15:00, a
5-minute multiple with zeroed seconds — but at 23:57:00 the computed
instant is 00:00:00 of the *same* day, because `replace` wraps the hour
modulo 24 without advancing the date; that instant lies in the past and
the sleep is negative (clamped to zero), so the computed boundary is not
always strictly in the future. -/
theorem C2_next_run_midnight_wrap :
    next_run ⟨12, 7, 31, 0⟩ = ⟨12, 10, 0, 0⟩ ∧
    next_run ⟨12, 10, 0, 0⟩ = ⟨12, 15, 0, 0⟩ ∧
    (next_run ⟨12, 7, 31, 0⟩).minute % 5 = 0 ∧
    (next_run ⟨12, 10, 0, 0⟩).minute % 5 = 0 ∧
    0 < sleepMicros ⟨12, 7, 31, 0⟩ ∧
    0 < sleepMicros ⟨12, 10, 0, 0⟩ ∧
    next_run ⟨23, 57, 0, 0⟩ = ⟨0, 0, 0, 0⟩ ∧
    sleepMicros ⟨23, 57, 0, 0⟩ < 0 := by
  decide

/-- **C1** counterexample: with `KALSHI_PRIVATE_KEY` unset the worker
still starts the scheduling loop — each of the first two iterations
sleeps to the boundary and then catches and logs the credential error
raised inside the cycle, so the process does proceed to scheduling,
contradicting the claim that it must not. -/
theorem C1_counterexample :
    (loopRun envNoKey 2).log =
      [LoopAction.sleep,
       LoopAction.cycleError "Missing KALSHI_PRIVATE_KEY environment variable",
       LoopAction.sleep,
       LoopAction.cycleError "Missing KALSHI_PRIVATE_KEY environment variable"] ∧
    buildRows envNoKey =
      .error "Missing KALSHI_PRIVATE_KEY environment variable" :=
  ⟨rfl, rfl⟩

/-- **C1** amended: a missing or malformed credential makes the snapshot
cycle raise while loading the key, so the cycle produces and persists
nothing; the error is caught and logged by the scheduling loop — which
runs regardless of the credential and sleeps before ever loading it — and
the loop returns to waiting.  Credential failure is cycle-scoped, not a
fatal startup error. -/
theorem C1_credential_error_cycle_scoped (env : Env) (s : LoopState) (e : String)
    (h : load_private_key_from_env env = .error e) :
    buildRows env = .error e ∧
    run_snapshot env s.sink = (.error e, s.sink) ∧
    loopStep env s =
      { sink := s.sink,
        log := s.log ++ [LoopAction.sleep, LoopAction.cycleError e] } := by
  have hb : buildRows env = .error e := by
    unfold buildRows
    rw [h]
  have hr : run_snapshot env s.sink = (.error e, s.sink) := by
    unfold run_snapshot
    rw [hb]
  refine ⟨hb, hr, ?_⟩
  unfold loopStep
  rw [hr]

/-- Witness for the amended C1 at the concrete keyless environment. -/
theorem C1_witness :
    load_private_key_from_env envNoKey =
      .error "Missing KALSHI_PRIVATE_KEY environment variable" ∧
    (buildRows envNoKey =
        .error "Missing KALSHI_PRIVATE_KEY environment variable" ∧
      run_snapshot envNoKey ([] : List (List SnapshotRow)) =
        (.error "Missing KALSHI_PRIVATE_KEY environment variable", []) ∧
      loopStep envNoKey { sink := [], log := [] } =
        { sink := [],
          log := [LoopAction.sleep,
            LoopAction.cycleError "Missing KALSHI_PRIVATE_KEY environment variable"] }) :=
  ⟨rfl, C1_credential_error_cycle_scoped envNoKey { sink := [], log := [] } _ rfl⟩

/-- **C6**: a cycle that fails anywhere (events, markets or depth fetch,
or the bulk insert) is caught at the loop boundary and logged, the sink
receives none of that cycle's rows and nothing is re-queued (the loop
state carries no pending rows), and the loop returns to the waiting
phase instead of crashing. -/
theorem C6_cycle_failure_contained (env : Env) (s : LoopState) (e : String)
    (h : (run_snapshot env s.sink).1 = .error e) :
    run_snapshot env s.sink = (.error e, s.sink) ∧
    loopStep env s =
      { sink := s.sink,
        log := s.log ++ [LoopAction.sleep, LoopAction.cycleError e] } := by
  have hr : run_snapshot env s.sink = (.error e, s.sink) := by
    unfold run_snapshot at h ⊢
    cases hb : buildRows env with
    | error e2 =>
      simp only [hb] at h ⊢
      injection h with h3
      rw [h3]
    | ok rows =>
      simp only [hb] at h ⊢
      by_cases hemp : rows.isEmpty = true
      · rw [if_pos hemp] at h
        simp at h
      · rw [if_neg hemp] at h ⊢
        cases hins : env.insertResp rows with
        | ok u =>
          rw [hins] at h
          simp at h
        | error e2 =>
          rw [hins] at h
          simp at h
          subst h
          simp
  refine ⟨hr, ?_⟩
  unfold loopStep
  rw [hr]

/-- Witness for C6: the concrete environment whose depth fetch raises a
network error — the cycle aborts, nothing is persisted, the error is
logged and the loop survives. -/
theorem C6_witness :
    (run_snapshot envDepthFail ([] : List (List SnapshotRow))).1 =
      .error "network error" ∧
    (run_snapshot envDepthFail ([] : List (List SnapshotRow)) =
        (.error "network error", []) ∧
      loopStep envDepthFail { sink := [], log := [] } =
        { sink := [],
          log := [LoopAction.sleep, LoopAction.cycleError "network error"] }) :=
  ⟨rfl, C6_cycle_failure_contained envDepthFail { sink := [], log := [] }
    "network error" rfl⟩
